import Mathlib

/-!
Verification of the twin-account detection pipeline
(`detect_twins_accounts.py`).

The Python source is shallowly embedded: messages are lists of
characters, Python `dict`s / `collections.Counter`s are insertion-ordered
association lists, `collections.defaultdict` key-creation on access is
modelled explicitly, and floating-point thresholds are modelled as
rationals (all ratios involved are exact decimal fractions).  Each
definition carries a comment naming the source function it embeds.
-/

set_option autoImplicit false

namespace DetectTwins

/-- A Python string, modelled character by character so that punctuation
stripping, lowercasing and whitespace splitting can be embedded
faithfully. -/
abbrev Str := List Char

/-- Membership in Python's `string.punctuation`, which is exactly the
ASCII characters with codes 33-47, 58-64, 91-96 and 123-126. -/
def isPunct (c : Char) : Bool :=
  decide ((33 ≤ c.toNat ∧ c.toNat ≤ 47) ∨ (58 ≤ c.toNat ∧ c.toNat ≤ 64) ∨
    (91 ≤ c.toNat ∧ c.toNat ≤ 96) ∨ (123 ≤ c.toNat ∧ c.toNat ≤ 126))

/-- ASCII whitespace as recognised by Python's `str.split()`:
space (32), tab (9), line feed (10), vertical tab (11), form feed (12),
carriage return (13). -/
def isPySpace (c : Char) : Bool :=
  decide (c.toNat = 32 ∨ (9 ≤ c.toNat ∧ c.toNat ≤ 13))

/-- Embeds `message.translate(str.maketrans('', '', string.punctuation))`:
every punctuation character is deleted. -/
def stripPunct (s : Str) : Str := s.filter (fun c => !isPunct c)

/-- Embeds `str.lower()` (ASCII case folding, which is all the pipeline's
character data exercises). -/
def pyLower (s : Str) : Str := s.map Char.toLower

/-- Worker for `pySplit`: `cur` holds the characters of the token being
accumulated, in reverse order. -/
def pySplitAux : Str → Str → List Str
  | [], cur => if cur = [] then [] else [cur.reverse]
  | c :: rest, cur =>
    if isPySpace c then
      if cur = [] then pySplitAux rest []
      else cur.reverse :: pySplitAux rest []
    else pySplitAux rest (c :: cur)

/-- Embeds Python's `str.split()` with no separator argument: split on
runs of whitespace, producing no empty tokens. -/
def pySplit (s : Str) : List Str := pySplitAux s []

section AList

variable {K V : Type} [DecidableEq K]

/-- The keys of an insertion-ordered association list (a Python `dict`'s
keys, in insertion order). -/
def alistKeys (d : List (K × V)) : List K := d.map Prod.fst

/-- Lookup in an insertion-ordered association list (`d[k]` on a Python
`dict`, returning `none` where Python would raise `KeyError`). -/
def alistLookup : List (K × V) → K → Option V
  | [], _ => none
  | (k', v) :: rest, k => if k' = k then some v else alistLookup rest k

/-- Apply `f` to the value stored at key `k` (in-place mutation of a
Python `dict` entry; keys are unique in every list we build, so
rewriting the first hit is exact). -/
def alistModify (d : List (K × V)) (k : K) (f : V → V) : List (K × V) :=
  match d with
  | [] => []
  | (k', v) :: rest => if k' = k then (k', f v) :: rest else (k', v) :: alistModify rest k f

/-- Embeds `collections.defaultdict.__missing__`: reading `d[k]` inserts
`k` with the default value `v₀` (at the end, preserving insertion
order) whenever `k` is absent. -/
def ensureKey (d : List (K × V)) (k : K) (v₀ : V) : List (K × V) :=
  if k ∈ alistKeys d then d else d ++ [(k, v₀)]

end AList

/-- One step of first-occurrence deduplication: append `x` unless it is
already present (the effect of testing `x not in acc` before
appending). -/
def dedupStep {α : Type} [DecidableEq α] (acc : List α) (x : α) : List α :=
  if x ∈ acc then acc else acc ++ [x]

/-- Keep the first occurrence of each element, preserving order. -/
def dedupFirst {α : Type} [DecidableEq α] (l : List α) : List α :=
  l.foldl dedupStep []

section Counter

variable {W : Type} [DecidableEq W]

/-- A `collections.Counter`: an insertion-ordered word → count map. -/
abbrev Counter (W : Type) := List (W × Nat)

/-- Embeds `counter.update([w])`: increment `w`'s count, appending a new
entry with count 1 if `w` is not yet present. -/
def counterUpdate : Counter W → W → Counter W
  | [], w => [(w, 1)]
  | (x, n) :: rest, w => if x = w then (x, n + 1) :: rest else (x, n) :: counterUpdate rest w

/-- Embeds `sum(counter.values())`. -/
def counterTotal (c : Counter W) : Nat := (c.map Prod.snd).sum

/-- Insert an entry into a list sorted by count in decreasing order,
placing it after every already-present entry of greater or equal count
(so earlier-inserted entries win ties). -/
def insertByCountDesc (x : W × Nat) : Counter W → Counter W
  | [] => [x]
  | y :: ys => if x.2 ≤ y.2 then y :: insertByCountDesc x ys else x :: y :: ys

/-- Stable sort of a counter's entries by count, decreasing — the order
produced by `Counter.most_common` (ties broken by insertion order). -/
def sortByCountDesc (c : Counter W) : Counter W :=
  c.foldl (fun acc x => insertByCountDesc x acc) []

/-- Embeds `counter.most_common(k)`. -/
def mostCommon (c : Counter W) (k : Nat) : Counter W := (sortByCountDesc c).take k

/-- The words of `counter.most_common(k)`, as a list
(`[word for word, count in c.most_common(k)]`). -/
def topWords (c : Counter W) (k : Nat) : List W := (mostCommon c k).map Prod.fst

end Counter

/-- A shape-valid input record: `{author_id: ..., message: ...}` with
both fields present. -/
structure Record (A : Type) where
  author_id : A
  message : Str

section Grouper

variable {A : Type} [DecidableEq A]

/-- One iteration of the loop in `create_dict` (source lines 58-63).
Note the faithful `collections.defaultdict(list)` behaviour: evaluating
`groups[message]` inside the condition inserts `message` with an empty
author list whenever it is absent, even when the word-count guard then
fails. -/
def createDictStep (wordsMoreThan : Nat) (groups : List (Str × List A)) (line : Record A) :
    List (Str × List A) :=
  if line.author_id ∉
      (alistLookup (ensureKey groups (pyLower line.message) []) (pyLower line.message)).getD [] ∧
      wordsMoreThan < (pySplit (pyLower line.message)).length then
    alistModify (ensureKey groups (pyLower line.message) []) (pyLower line.message)
      (fun l => l ++ [line.author_id])
  else ensureKey groups (pyLower line.message) []

/-- Embeds `create_dict(message_dat, words_more_than)`: group records by
lowercased message text, collecting each text's distinct authors in
order of first appearance. -/
def create_dict (messageDat : List (Record A)) (wordsMoreThan : Nat) : List (Str × List A) :=
  messageDat.foldl (createDictStep wordsMoreThan) []

/-- Embeds `find_same_messages`: the author lists of size ≥ 2, in order,
deduplicated by list equality (`accounts not in more_one_author`). -/
def findSameMessages (sameMessages : List (Str × List A)) : List (List A) :=
  sameMessages.foldl
    (fun acc p => if p.2.length > 1 ∧ p.2 ∉ acc then acc ++ [p.2] else acc) []

/-- Embeds `itertools.combinations(l, 2)`: all pairs `(l[i], l[j])` with
`i < j`, in lexicographic index order. -/
def combinations2 {α : Type} : List α → List (α × α)
  | [] => []
  | x :: xs => xs.map (fun y => (x, y)) ++ combinations2 xs

/-- Embeds `find_all_combinations`: concatenate the 2-combinations of
every author list. -/
def find_all_combinations (large : List (List A)) : List (A × A) :=
  large.foldl (fun acc accounts => acc ++ combinations2 accounts) []

end Grouper

section FreqDict

variable {A : Type} [DecidableEq A]

/-- One iteration of the outer loop of `crete_freq_dict` (source lines
97-105): ensure the author has a counter, then count every non-empty,
non-stoplisted token of the punctuation-stripped, lowercased message. -/
def processRecord (common : List Str) (freq : List (A × Counter Str)) (line : Record A) :
    List (A × Counter Str) :=
  (pySplit (pyLower (stripPunct line.message))).foldl
    (fun f word =>
      if word = [] then f
      else if word ∈ common then f
      else alistModify f line.author_id (fun c => counterUpdate c word))
    (ensureKey freq line.author_id ([] : Counter Str))

/-- Recursive worker for `crete_freq_dict`. -/
def creteFreqDictAux (common : List Str) : List (Record A) → List (A × Counter Str) →
    List (A × Counter Str)
  | [], freq => freq
  | line :: rest, freq => creteFreqDictAux common rest (processRecord common freq line)

/-- Embeds `crete_freq_dict(data, common)` (the source's spelling): the
per-author word-frequency profiles. -/
def crete_freq_dict (data : List (Record A)) (common : List Str) : List (A × Counter Str) :=
  creteFreqDictAux common data []

end FreqDict

section Scorer

variable {A W : Type} [DecidableEq A] [DecidableEq W]

/-- Embeds `data_dict[account]` for a key of the dict (total via a
default that no reachable call hits). -/
def profile (d : List (A × Counter W)) (a : A) : Counter W := (alistLookup d a).getD []

/-- Embeds `len(top_words1.intersection(top_words2))` where the
`top_words` are the sets of the two authors' `most_common(top_k)`
words. -/
def commonTopCount (c1 c2 : Counter W) (top_k : Nat) : Nat :=
  ((topWords c1 top_k).toFinset ∩ (topWords c2 top_k).toFinset).card

/-- Embeds source lines 129-131: the threshold, scaled down when either
author's total word count falls below `min_words`. -/
def adjustedThreshold (threshold : ℚ) (min_words c1total c2total : Nat) : ℚ :=
  if c1total < min_words ∨ c2total < min_words then
    threshold * (1 - ((min_words : ℚ) - (min c1total c2total : ℚ)) / (min_words : ℚ))
  else threshold

/-- Embeds `analyse_frequency_dicts(data_dict, top_k, threshold,
min_words)`: for each 2-combination of authors (dict key order), flag it
when the top-K word sets intersect and the overlap ratio reaches the
adjusted threshold. -/
def analyse_frequency_dicts (data_dict : List (A × Counter W)) (top_k : Nat)
    (threshold : ℚ) (min_words : Nat) : List (A × A) :=
  (combinations2 (alistKeys data_dict)).filter fun p =>
    let c1 := profile data_dict p.1
    let c2 := profile data_dict p.2
    let common := commonTopCount c1 c2 top_k
    if common = 0 then false
    else decide (adjustedThreshold threshold min_words (counterTotal c1) (counterTotal c2) ≤
      (common : ℚ) / (top_k : ℚ))

end Scorer

section Combiner

variable {A : Type} [LinearOrder A]

/-- Embeds `tuple(sorted(pair))` for a 2-tuple: the canonical
(nondecreasing) orientation of an author pair. -/
def sortPair (p : A × A) : A × A := if p.1 ≤ p.2 then p else (p.2, p.1)

/-- Embeds `combine_results(suspicious_ac, all_comb)`: canonicalize both
lists and intersect them as sets.  (Python returns `list(...)` of this
set in unspecified hash order; the `Finset` captures its contents.) -/
def combine_results (suspicious_ac all_comb : List (A × A)) : Finset (A × A) :=
  (suspicious_ac.map sortPair).toFinset ∩ (all_comb.map sortPair).toFinset

end Combiner

section Raw

variable {A : Type} [DecidableEq A]

/-- A record as `json.loads` actually delivers it: either field may be
absent (`none` stands for a missing key, read as a Python `KeyError` on
access). -/
structure RawRecord (A : Type) where
  author_id : Option A
  message : Option Str

/-- Modelled from the source (`load_data`, lines 21-28): `json.loads`
is applied line by line and fails only on syntactically invalid JSON; a
parseable record is returned as-is, with no field/shape validation.
Over already-parsed records the load step therefore never rejects. -/
def load_data (lines : List (RawRecord A)) : Except String (List (RawRecord A)) :=
  Except.ok lines

/-- Recursive worker for `create_dict` over raw records, surfacing the
`KeyError`s the source would raise: `line['message']` is read first
(line 60), then `line['author_id']` (line 61, evaluated left of the
`defaultdict` access). -/
def createDictRawAux (wordsMoreThan : Nat) :
    List (RawRecord A) → List (Str × List A) → Except String (List (Str × List A))
  | [], groups => Except.ok groups
  | line :: rest, groups =>
    match line.message with
    | none => Except.error "KeyError: message"
    | some msg =>
      match line.author_id with
      | none => Except.error "KeyError: author_id"
      | some a => createDictRawAux wordsMoreThan rest
          (createDictStep wordsMoreThan groups ⟨a, msg⟩)

/-- `create_dict` on raw records, as called by the pipeline. -/
def createDictRaw (messageDat : List (RawRecord A)) (wordsMoreThan : Nat) :
    Except String (List (Str × List A)) :=
  createDictRawAux wordsMoreThan messageDat []

/-- Recursive worker for `crete_freq_dict` over raw records:
`line['author_id']` is read first (line 98), then `line['message']`
(line 100). -/
def creteFreqDictRawAux (common : List Str) :
    List (RawRecord A) → List (A × Counter Str) → Except String (List (A × Counter Str))
  | [], freq => Except.ok freq
  | line :: rest, freq =>
    match line.author_id with
    | none => Except.error "KeyError: author_id"
    | some a =>
      match line.message with
      | none => Except.error "KeyError: message"
      | some msg => creteFreqDictRawAux common rest (processRecord common freq ⟨a, msg⟩)

/-- `crete_freq_dict` on raw records, as called by the pipeline. -/
def creteFreqDictRaw (data : List (RawRecord A)) (common : List Str) :
    Except String (List (A × Counter Str)) :=
  creteFreqDictRawAux common data []

end Raw

/-- The analysis pipeline of `find_twins_accounts` (source lines
161-190), after the out-of-scope CLI/file layer has produced the parsed
records: grouping with `words_more_than = 2`, duplicate extraction,
frequency modelling, scoring with `top_k = 10`, `threshold = 0.7`,
`min_words = 3`, and the final combination.  `0.7` is the exact rational
`7/10` (the float literal `0.7` and the float quotient `7/10` compare
identically at every ratio this pipeline produces). -/
def find_twins_from_records {A : Type} [LinearOrder A] (data : List (RawRecord A))
    (common_words : List Str) : Except String (Finset (A × A)) := do
  let same_mes ← createDictRaw data 2
  let large_same_mes := findSameMessages same_mes
  let all_combinations := find_all_combinations large_same_mes
  let freq_dict ← creteFreqDictRaw data common_words
  let suspicious_accounts := analyse_frequency_dicts freq_dict 10 (7/10 : ℚ) 3
  pure (combine_results suspicious_accounts all_combinations)

/-- Modelled from the spec (§4.2, for comparison with the source's
extractor): the concatenation, over the distinct (list-equality
deduplicated, first occurrence kept) author lists of length at least 2,
of all 2-combinations of each list. -/
def duplicatePairsSpec {A : Type} [DecidableEq A] (groups : List (Str × List A)) :
    List (A × A) :=
  (dedupFirst ((groups.map Prod.snd).filter (fun l => l.length > 1))).map combinations2 |>.flatten

/-! ### Helper lemmas -/

section AListLemmas

variable {K V : Type} [DecidableEq K]

theorem alistKeys_alistModify (d : List (K × V)) (k : K) (f : V → V) :
    alistKeys (alistModify d k f) = alistKeys d := by
  induction d with
  | nil => rfl
  | cons p rest ih =>
    rcases p with ⟨k', v⟩
    by_cases h : k' = k
    · simp [alistModify, h, alistKeys]
    · simp only [alistModify, if_neg h, alistKeys, List.map_cons]
      rw [show List.map Prod.fst (alistModify rest k f) = alistKeys (alistModify rest k f) from rfl,
        ih]
      rfl

theorem mem_alistModify {d : List (K × V)} {k : K} {f : V → V} {q : K × V}
    (h : q ∈ alistModify d k f) : q ∈ d ∨ (q.1 = k ∧ ∃ v, (k, v) ∈ d ∧ q.2 = f v) := by
  induction d with
  | nil => simp [alistModify] at h
  | cons p rest ih =>
    rcases p with ⟨k', v⟩
    by_cases hk : k' = k
    · subst hk
      simp only [alistModify, if_pos rfl] at h
      rcases List.mem_cons.mp h with h | h
      · exact Or.inr ⟨by rw [h], v, List.mem_cons_self _ _, by rw [h]⟩
      · exact Or.inl (List.mem_cons_of_mem _ h)
    · simp only [alistModify, if_neg hk] at h
      rcases List.mem_cons.mp h with h | h
      · exact Or.inl (by rw [h]; exact List.mem_cons_self _ _)
      · rcases ih h with h' | ⟨h1, v', hv', h2⟩
        · exact Or.inl (List.mem_cons_of_mem _ h')
        · exact Or.inr ⟨h1, v', List.mem_cons_of_mem _ hv', h2⟩

theorem mem_ensureKey {d : List (K × V)} {k : K} {v₀ : V} {q : K × V}
    (h : q ∈ ensureKey d k v₀) : q ∈ d ∨ q = (k, v₀) := by
  unfold ensureKey at h
  split at h
  · exact Or.inl h
  · rcases List.mem_append.mp h with h' | h'
    · exact Or.inl h'
    · exact Or.inr (List.mem_singleton.mp h')

theorem alistLookup_alistModify_self (d : List (K × V)) (k : K) (f : V → V) :
    alistLookup (alistModify d k f) k = (alistLookup d k).map f := by
  induction d with
  | nil => rfl
  | cons p rest ih =>
    rcases p with ⟨k', v⟩
    by_cases h : k' = k <;> simp [alistModify, alistLookup, h, ih]

theorem alistLookup_alistModify_ne (d : List (K × V)) {k a : K} (f : V → V) (h : k ≠ a) :
    alistLookup (alistModify d k f) a = alistLookup d a := by
  induction d with
  | nil => rfl
  | cons p rest ih =>
    rcases p with ⟨k', v⟩
    by_cases h1 : k' = k
    · subst h1
      simp [alistModify, alistLookup, h]
    · by_cases h2 : k' = a <;> simp [alistModify, alistLookup, h1, h2, Ne.symm h, ih]

theorem alistLookup_append_right_of_not_mem {d : List (K × V)} {k : K} (v : V)
    (h : k ∉ alistKeys d) : alistLookup (d ++ [(k, v)]) k = some v := by
  induction d with
  | nil => simp [alistLookup]
  | cons p rest ih =>
    rcases p with ⟨k', v'⟩
    simp only [alistKeys, List.map_cons, List.mem_cons] at h
    push_neg at h
    simp only [List.cons_append, alistLookup, if_neg (Ne.symm h.1)]
    exact ih (by simpa [alistKeys] using h.2)

theorem alistLookup_append_singleton_ne (d : List (K × V)) {k a : K} (v : V) (h : k ≠ a) :
    alistLookup (d ++ [(k, v)]) a = alistLookup d a := by
  induction d with
  | nil => simp [alistLookup, h]
  | cons p rest ih =>
    rcases p with ⟨k', v'⟩
    by_cases h2 : k' = a <;> simp [alistLookup, h2, ih]

theorem alistLookup_isSome_of_mem_keys {d : List (K × V)} {k : K}
    (h : k ∈ alistKeys d) : ∃ v, alistLookup d k = some v := by
  induction d with
  | nil => simp [alistKeys] at h
  | cons p rest ih =>
    rcases p with ⟨k', v'⟩
    by_cases hk : k' = k
    · exact ⟨v', by simp [alistLookup, hk]⟩
    · simp only [alistKeys, List.map_cons, List.mem_cons] at h
      rcases h with h | h
      · exact absurd h.symm hk
      · rcases ih (by simpa [alistKeys] using h) with ⟨v, hv⟩
        exact ⟨v, by simpa [alistLookup, hk] using hv⟩

theorem alistKeys_ensureKey (d : List (K × V)) (k : K) (v₀ : V) :
    alistKeys (ensureKey d k v₀) =
      if k ∈ alistKeys d then alistKeys d else alistKeys d ++ [k] := by
  unfold ensureKey
  split <;> simp [alistKeys]

end AListLemmas

theorem isPunct_toLower {c : Char} (h : isPunct c = false) :
    isPunct (Char.toLower c) = false := by
  show isPunct (if c.toNat ≥ 65 ∧ c.toNat ≤ 90 then Char.ofNat (c.toNat + 32) else c) = false
  split
  · next hn =>
    obtain ⟨h1, h2⟩ := hn
    have hv : (Char.toNat c + 32).isValidChar := Or.inl (by omega)
    have ht : (Char.ofNat (Char.toNat c + 32)).toNat = Char.toNat c + 32 := by
      unfold Char.ofNat
      rw [dif_pos hv]
      rfl
    simp only [isPunct, ht, decide_eq_false_iff_not]
    omega
  · exact h

theorem mem_dedupFirst_foldl {α : Type} [DecidableEq α] (l : List α) (acc : List α) (x : α) :
    x ∈ l.foldl dedupStep acc ↔ x ∈ acc ∨ x ∈ l := by
  induction l generalizing acc with
  | nil => simp
  | cons y ys ih =>
    simp only [List.foldl_cons, ih, List.mem_cons, dedupStep]
    by_cases h : y ∈ acc
    · rw [if_pos h]
      constructor
      · rintro (h' | h')
        · exact Or.inl h'
        · exact Or.inr (Or.inr h')
      · rintro (h' | rfl | h')
        · exact Or.inl h'
        · exact Or.inl h
        · exact Or.inr h'
    · rw [if_neg h]
      simp only [List.mem_append, List.mem_singleton]
      tauto

theorem mem_dedupFirst {α : Type} [DecidableEq α] (l : List α) (x : α) :
    x ∈ dedupFirst l ↔ x ∈ l := by
  unfold dedupFirst
  rw [mem_dedupFirst_foldl]
  simp


section ScorerLemmas

variable {A W : Type} [DecidableEq A] [DecidableEq W]

theorem commonTopCount_comm (c1 c2 : Counter W) (k : Nat) :
    commonTopCount c1 c2 k = commonTopCount c2 c1 k := by
  simp [commonTopCount, Finset.inter_comm]

theorem topWords_nil {W' : Type} (k : Nat) : topWords ([] : Counter W') k = [] := by
  simp [topWords, mostCommon, sortByCountDesc]

theorem commonTopCount_nil_left (c : Counter W) (k : Nat) :
    commonTopCount ([] : Counter W) c k = 0 := by
  simp [commonTopCount, topWords_nil]

/-- Membership in the scorer's output, decoded into arithmetic: the
pair is enumerated, the top-K overlap is non-empty, and the overlap
ratio reaches the adjusted threshold. -/
theorem mem_analyse_iff (d : List (A × Counter W)) (top_k : Nat) (threshold : ℚ)
    (min_words : Nat) (a b : A) :
    (a, b) ∈ analyse_frequency_dicts d top_k threshold min_words ↔
      (a, b) ∈ combinations2 (alistKeys d) ∧
      0 < commonTopCount (profile d a) (profile d b) top_k ∧
      adjustedThreshold threshold min_words (counterTotal (profile d a))
          (counterTotal (profile d b)) ≤
        (commonTopCount (profile d a) (profile d b) top_k : ℚ) / (top_k : ℚ) := by
  unfold analyse_frequency_dicts
  rw [List.mem_filter]
  by_cases h0 : commonTopCount (profile d a) (profile d b) top_k = 0
  · simp [h0]
  · simp [h0, Nat.pos_of_ne_zero h0]

theorem analyse_not_flagged_of_no_overlap (d : List (A × Counter W)) (top_k : Nat)
    (threshold : ℚ) (min_words : Nat) (a b : A)
    (h0 : commonTopCount (profile d a) (profile d b) top_k = 0) :
    (a, b) ∉ analyse_frequency_dicts d top_k threshold min_words ∧
    (b, a) ∉ analyse_frequency_dicts d top_k threshold min_words := by
  constructor
  · intro hmem
    rcases (mem_analyse_iff d top_k threshold min_words a b).mp hmem with ⟨-, hpos, -⟩
    rw [h0] at hpos
    exact absurd hpos (lt_irrefl 0)
  · intro hmem
    rcases (mem_analyse_iff d top_k threshold min_words b a).mp hmem with ⟨-, hpos, -⟩
    rw [commonTopCount_comm, h0] at hpos
    exact absurd hpos (lt_irrefl 0)

end ScorerLemmas

/-! ### Claim theorems -/

/-- C1: an author pair is in the Twin Result Set returned by
`combine_results` exactly when it is the canonical (sorted) form of some
pair of the vocabulary-similarity Suspicion Set and also of some pair of
the duplicate-message Suspicion Set: the output is precisely the
intersection of the two canonicalized sets. -/
theorem combine_results_inter {A : Type} [LinearOrder A]
    (suspicious_ac all_comb : List (A × A)) (p : A × A) :
    p ∈ combine_results suspicious_ac all_comb ↔
      (∃ q ∈ suspicious_ac, sortPair q = p) ∧ (∃ r ∈ all_comb, sortPair r = p) := by
  simp [combine_results]

/-- C3: for the vocabulary-similarity scorer, the adjusted threshold
equals the base threshold when both authors' total word counts reach
`min_words`, equals `threshold * (1 - (min_words - min(count1, count2)) /
min_words)` when either count falls below `min_words`, and (for the
nonnegative thresholds of the configuration surface) never exceeds the
base threshold. -/
theorem adjustedThreshold_spec (threshold : ℚ) (min_words c1 c2 : Nat)
    (hτ : 0 ≤ threshold) :
    (min_words ≤ c1 → min_words ≤ c2 →
      adjustedThreshold threshold min_words c1 c2 = threshold) ∧
    (c1 < min_words ∨ c2 < min_words →
      adjustedThreshold threshold min_words c1 c2 =
        threshold * (1 - ((min_words : ℚ) - (min c1 c2 : ℚ)) / (min_words : ℚ))) ∧
    adjustedThreshold threshold min_words c1 c2 ≤ threshold := by
  refine ⟨?_, ?_, ?_⟩
  · intro h1 h2
    simp [adjustedThreshold, Nat.not_lt.mpr h1, Nat.not_lt.mpr h2]
  · intro h
    simp [adjustedThreshold, h]
  · unfold adjustedThreshold
    split
    · next h =>
      have hm : 0 < min_words := by
        rcases h with h | h <;> omega
      have hmn : min c1 c2 < min_words := by
        rcases h with h | h
        · exact lt_of_le_of_lt (Nat.min_le_left _ _) h
        · exact lt_of_le_of_lt (Nat.min_le_right _ _) h
      have hmQ : (0 : ℚ) < (min_words : ℚ) := by exact_mod_cast hm
      have hmnQ : (min c1 c2 : ℚ) ≤ (min_words : ℚ) := by exact_mod_cast le_of_lt hmn
      have hfrac : 0 ≤ ((min_words : ℚ) - (min c1 c2 : ℚ)) / (min_words : ℚ) :=
        div_nonneg (by linarith) (le_of_lt hmQ)
      have hfac : 1 - ((min_words : ℚ) - (min c1 c2 : ℚ)) / (min_words : ℚ) ≤ 1 := by
        linarith
      calc threshold * (1 - ((min_words : ℚ) - (min c1 c2 : ℚ)) / (min_words : ℚ))
          ≤ threshold * 1 := mul_le_mul_of_nonneg_left hfac hτ
        _ = threshold := mul_one _
    · exact le_refl _

/-- C3 witness: at `threshold = 7/10`, `min_words = 3`, counts 5 and 1,
the hypothesis `0 ≤ 7/10` holds and the three conclusions evaluate. -/
theorem adjustedThreshold_spec_witness :
    (0 : ℚ) ≤ 7/10 ∧
    ((3 ≤ 5 → 3 ≤ 1 → adjustedThreshold (7/10) 3 5 1 = 7/10) ∧
     (5 < 3 ∨ 1 < 3 →
       adjustedThreshold (7/10) 3 5 1 =
         (7/10 : ℚ) * (1 - ((3 : ℚ) - (min 5 1 : ℚ)) / (3 : ℚ))) ∧
     adjustedThreshold (7/10) 3 5 1 ≤ 7/10) :=
  ⟨by norm_num, adjustedThreshold_spec (7/10) 3 5 1 (by norm_num)⟩

/-- C2: an enumerated pair of authors is flagged by
`analyse_frequency_dicts` exactly when the top-K overlap is non-empty
and `common / top_k` reaches the adjusted threshold; in particular with
`top_k = 10`, `threshold = 0.7`, exactly 7 shared top-10 words and both
totals at least `min_words`, the pair is flagged. -/
theorem analyse_flags_iff {A W : Type} [DecidableEq A] [DecidableEq W]
    (d : List (A × Counter W)) (top_k : Nat) (threshold : ℚ) (min_words : Nat)
    (a b : A) (hmem : (a, b) ∈ combinations2 (alistKeys d)) :
    ((a, b) ∈ analyse_frequency_dicts d top_k threshold min_words ↔
      0 < commonTopCount (profile d a) (profile d b) top_k ∧
      adjustedThreshold threshold min_words (counterTotal (profile d a))
          (counterTotal (profile d b)) ≤
        (commonTopCount (profile d a) (profile d b) top_k : ℚ) / (top_k : ℚ)) ∧
    (top_k = 10 → threshold = 7/10 →
      commonTopCount (profile d a) (profile d b) top_k = 7 →
      min_words ≤ counterTotal (profile d a) →
      min_words ≤ counterTotal (profile d b) →
      (a, b) ∈ analyse_frequency_dicts d top_k threshold min_words) := by
  constructor
  · rw [mem_analyse_iff]
    simp [hmem]
  · intro hk hτ h7 h1 h2
    subst hk
    subst hτ
    rw [mem_analyse_iff]
    refine ⟨hmem, ?_, ?_⟩
    · rw [h7]
      norm_num
    · rw [h7]
      have hadj : adjustedThreshold (7/10) min_words (counterTotal (profile d a))
          (counterTotal (profile d b)) = 7/10 := by
        simp [adjustedThreshold, Nat.not_lt.mpr h1, Nat.not_lt.mpr h2]
      rw [hadj]
      norm_num

/-- C2 witness: two authors `0` and `1` whose profiles are the same
seven words (each total 7 ≥ 3) share exactly 7 of their top-10 words and
are flagged at `top_k = 10`, `threshold = 7/10`. -/
theorem analyse_flags_iff_witness :
    (0, 1) ∈ combinations2 (alistKeys
      ([(0, [(0, 1), (1, 1), (2, 1), (3, 1), (4, 1), (5, 1), (6, 1)]),
        (1, [(0, 1), (1, 1), (2, 1), (3, 1), (4, 1), (5, 1), (6, 1)])] :
        List (ℕ × Counter ℕ))) ∧
    (0, 1) ∈ analyse_frequency_dicts
      ([(0, [(0, 1), (1, 1), (2, 1), (3, 1), (4, 1), (5, 1), (6, 1)]),
        (1, [(0, 1), (1, 1), (2, 1), (3, 1), (4, 1), (5, 1), (6, 1)])] :
        List (ℕ × Counter ℕ)) 10 (7/10 : ℚ) 3 :=
  ⟨by decide,
   (analyse_flags_iff
      ([(0, [(0, 1), (1, 1), (2, 1), (3, 1), (4, 1), (5, 1), (6, 1)]),
        (1, [(0, 1), (1, 1), (2, 1), (3, 1), (4, 1), (5, 1), (6, 1)])] :
        List (ℕ × Counter ℕ)) 10 (7/10 : ℚ) 3 0 1 (by decide)).2
     rfl rfl (by decide) (by decide) (by decide)⟩

/-- C4: a pair of authors whose top-K word sets do not intersect is
never flagged by the scorer, in either orientation; and an author whose
stored profile is the empty counter never occurs in any flagged pair. -/
theorem analyse_empty_overlap_never_flagged {A W : Type} [DecidableEq A] [DecidableEq W]
    (d : List (A × Counter W)) (top_k : Nat) (threshold : ℚ) (min_words : Nat) (a b : A) :
    (commonTopCount (profile d a) (profile d b) top_k = 0 →
      (a, b) ∉ analyse_frequency_dicts d top_k threshold min_words ∧
      (b, a) ∉ analyse_frequency_dicts d top_k threshold min_words) ∧
    (alistLookup d a = some [] →
      (a, b) ∉ analyse_frequency_dicts d top_k threshold min_words ∧
      (b, a) ∉ analyse_frequency_dicts d top_k threshold min_words) := by
  constructor
  · exact analyse_not_flagged_of_no_overlap d top_k threshold min_words a b
  · intro hnil
    have hp : profile d a = [] := by simp [profile, hnil]
    exact analyse_not_flagged_of_no_overlap d top_k threshold min_words a b
      (by rw [hp]; exact commonTopCount_nil_left _ _)

/-- C4 witness: with author `1` carrying the empty profile, neither
hypothesis-discharged conclusion flags a pair involving it. -/
theorem analyse_empty_overlap_never_flagged_witness :
    (commonTopCount (profile ([(0, [(5, 1)]), (1, [])] : List (ℕ × Counter ℕ)) 1)
        (profile ([(0, [(5, 1)]), (1, [])] : List (ℕ × Counter ℕ)) 0) 10 = 0 ∧
      alistLookup ([(0, [(5, 1)]), (1, [])] : List (ℕ × Counter ℕ)) 1 = some []) ∧
    ((1, 0) ∉ analyse_frequency_dicts ([(0, [(5, 1)]), (1, [])] :
        List (ℕ × Counter ℕ)) 10 (7/10 : ℚ) 3 ∧
      (0, 1) ∉ analyse_frequency_dicts ([(0, [(5, 1)]), (1, [])] :
        List (ℕ × Counter ℕ)) 10 (7/10 : ℚ) 3) :=
  ⟨⟨by decide, by decide⟩,
   (analyse_empty_overlap_never_flagged ([(0, [(5, 1)]), (1, [])] :
      List (ℕ × Counter ℕ)) 10 (7/10 : ℚ) 3 1 0).2 (by decide)⟩

theorem mem_pySplitAux {w : Str} : ∀ {s cur : Str}, w ∈ pySplitAux s cur →
    (∀ c ∈ w, c ∈ s ∨ c ∈ cur) ∧ w ≠ [] := by
  intro s
  induction s with
  | nil =>
    intro cur h
    unfold pySplitAux at h
    split at h
    · cases h
    · next hcur =>
      rcases List.mem_singleton.mp h with rfl
      refine ⟨fun c hc => Or.inr (List.mem_reverse.mp hc), ?_⟩
      simpa using hcur
  | cons c rest ih =>
    intro cur h
    unfold pySplitAux at h
    by_cases hsp : isPySpace c
    · rw [if_pos hsp] at h
      by_cases hcur : cur = []
      · rw [if_pos hcur] at h
        rcases ih h with ⟨hc, hn⟩
        refine ⟨fun x hx => ?_, hn⟩
        rcases hc x hx with h' | h'
        · exact Or.inl (List.mem_cons_of_mem _ h')
        · cases h'
      · rw [if_neg hcur] at h
        rcases List.mem_cons.mp h with rfl | h'
        · refine ⟨fun x hx => Or.inr (List.mem_reverse.mp hx), by simpa using hcur⟩
        · rcases ih h' with ⟨hc, hn⟩
          refine ⟨fun x hx => ?_, hn⟩
          rcases hc x hx with h'' | h''
          · exact Or.inl (List.mem_cons_of_mem _ h'')
          · cases h''
    · rw [if_neg hsp] at h
      rcases ih h with ⟨hc, hn⟩
      refine ⟨fun x hx => ?_, hn⟩
      rcases hc x hx with h' | h'
      · exact Or.inl (List.mem_cons_of_mem _ h')
      · rcases List.mem_cons.mp h' with rfl | h''
        · exact Or.inl (List.mem_cons_self _ _)
        · exact Or.inr h''

theorem pySplit_ne_nil {s w : Str} (h : w ∈ pySplit s) : w ≠ [] :=
  (mem_pySplitAux h).2

theorem pySplit_chars {s w : Str} (h : w ∈ pySplit s) : ∀ c ∈ w, c ∈ s := by
  intro c hc
  rcases (mem_pySplitAux h).1 c hc with h' | h'
  · exact h'
  · cases h'

theorem findSameMessages_foldl_eq {A : Type} [DecidableEq A] (l : List (Str × List A)) :
    ∀ acc : List (List A),
      l.foldl (fun acc p => if p.2.length > 1 ∧ p.2 ∉ acc then acc ++ [p.2] else acc) acc =
      ((l.map Prod.snd).filter (fun x => x.length > 1)).foldl dedupStep acc := by
  induction l with
  | nil => intro acc; rfl
  | cons p rest ih =>
    intro acc
    simp only [List.foldl_cons, List.map_cons]
    by_cases h1 : p.2.length > 1
    · rw [List.filter_cons_of_pos (by simpa using h1), List.foldl_cons]
      by_cases h2 : p.2 ∈ acc
      · rw [if_neg (by tauto), dedupStep, if_pos h2]
        exact ih acc
      · rw [if_pos ⟨h1, h2⟩, dedupStep, if_neg h2]
        exact ih (acc ++ [p.2])
    · rw [List.filter_cons_of_neg (by simpa using h1), if_neg (by tauto)]
      exact ih acc

theorem findSameMessages_eq {A : Type} [DecidableEq A] (d : List (Str × List A)) :
    findSameMessages d = dedupFirst ((d.map Prod.snd).filter (fun x => x.length > 1)) := by
  unfold findSameMessages dedupFirst
  exact findSameMessages_foldl_eq d []

theorem find_all_combinations_foldl {A : Type} [DecidableEq A] (large : List (List A)) :
    ∀ acc, large.foldl (fun acc accounts => acc ++ combinations2 accounts) acc =
      acc ++ (large.map combinations2).flatten := by
  induction large with
  | nil => intro acc; simp
  | cons l rest ih =>
    intro acc
    simp only [List.foldl_cons, List.map_cons, List.flatten_cons, ih, List.append_assoc]

theorem find_all_combinations_eq {A : Type} [DecidableEq A] (large : List (List A)) :
    find_all_combinations large = (large.map combinations2).flatten := by
  unfold find_all_combinations
  simpa using find_all_combinations_foldl large []

theorem combinations2_length {α : Type} (l : List α) :
    (combinations2 l).length = Nat.choose l.length 2 := by
  induction l with
  | nil => rfl
  | cons x xs ih =>
    simp only [combinations2, List.length_append, List.length_map, ih, List.length_cons]
    rw [Nat.choose_succ_succ, Nat.choose_one_right]

theorem mem_combinations2_of_mem {α : Type} {l : List α} {a b : α}
    (ha : a ∈ l) (hb : b ∈ l) (hab : a ≠ b) :
    (a, b) ∈ combinations2 l ∨ (b, a) ∈ combinations2 l := by
  induction l with
  | nil => cases ha
  | cons x xs ih =>
    rcases List.mem_cons.mp ha with rfl | ha'
    · have hb' : b ∈ xs := by
        rcases List.mem_cons.mp hb with rfl | hb'
        · exact absurd rfl hab
        · exact hb'
      refine Or.inl ?_
      rw [combinations2]
      exact List.mem_append.mpr (Or.inl (List.mem_map.mpr ⟨b, hb', rfl⟩))
    · rcases List.mem_cons.mp hb with rfl | hb'
      · refine Or.inr ?_
        rw [combinations2]
        exact List.mem_append.mpr (Or.inl (List.mem_map.mpr ⟨a, ha', rfl⟩))
      · rcases ih ha' hb' with h | h
        · exact Or.inl (by rw [combinations2]; exact List.mem_append.mpr (Or.inr h))
        · exact Or.inr (by rw [combinations2]; exact List.mem_append.mpr (Or.inr h))

/-- C6: the duplicate-message Suspicion Set is exactly the concatenation,
over the distinct (list-equality deduplicated, first kept) author lists
of length at least 2, of all 2-combinations of each list; a list of
length N contributes `C(N, 2)` pairs, and a repeated identical
author-list sequence contributes its pairs only once (captured by the
deduplication inside `duplicatePairsSpec`). -/
theorem extractor_pairs_spec {A : Type} [DecidableEq A] (d : List (Str × List A)) :
    find_all_combinations (findSameMessages d) = duplicatePairsSpec d ∧
    ∀ l : List A, (combinations2 l).length = Nat.choose l.length 2 := by
  constructor
  · rw [find_all_combinations_eq, findSameMessages_eq]
    rfl
  · exact fun l => combinations2_length l

theorem createDictStep_wordcount_inv {A : Type} [DecidableEq A] (t : Nat)
    (g : List (Str × List A)) (line : Record A)
    (hg : ∀ q ∈ g, q.2 ≠ [] → t < (pySplit q.1).length) :
    ∀ q ∈ createDictStep t g line, q.2 ≠ [] → t < (pySplit q.1).length := by
  intro q hq hne
  unfold createDictStep at hq
  split at hq
  · next hcond =>
    rcases mem_alistModify hq with h | ⟨h1, v, hv, h2⟩
    · rcases mem_ensureKey h with h' | rfl
      · exact hg q h' hne
      · exact absurd rfl hne
    · rw [h1]
      exact hcond.2
  · rcases mem_ensureKey hq with h' | rfl
    · exact hg q h' hne
    · exact absurd rfl hne

theorem create_dict_foldl_wordcount {A : Type} [DecidableEq A] (t : Nat)
    (data : List (Record A)) :
    ∀ g, (∀ q ∈ g, q.2 ≠ [] → t < (pySplit q.1).length) →
      ∀ q ∈ data.foldl (createDictStep t) g, q.2 ≠ [] → t < (pySplit q.1).length := by
  induction data with
  | nil => intro g hg; simpa using hg
  | cons line rest ih =>
    intro g hg
    rw [List.foldl_cons]
    exact ih _ (createDictStep_wordcount_inv t g line hg)

/-- C8 (amended): every group of the grouper's mapping that carries a
non-empty author list has word count strictly greater than the
configured minimum; empty and single-word messages can appear as keys
(inserted with an empty author list by the defaultdict access) but never
receive any author. -/
theorem create_dict_group_wordcount {A : Type} [DecidableEq A] (data : List (Record A))
    (t : Nat) (msg : Str) (authors : List A)
    (hmem : (msg, authors) ∈ create_dict data t) (hne : authors ≠ []) :
    t < (pySplit msg).length :=
  create_dict_foldl_wordcount t data [] (by simp) (msg, authors) hmem hne

/-- C8 witness: the two-word message "hi yo" is stored with its author,
and its word count 2 exceeds the threshold 1. -/
theorem create_dict_group_wordcount_witness :
    ((['h', 'i', ' ', 'y', 'o'] : Str), ["a"]) ∈
        create_dict [(⟨"a", ['h', 'i', ' ', 'y', 'o']⟩ : Record String)] 1 ∧
    (["a"] : List String) ≠ [] ∧
    1 < (pySplit (['h', 'i', ' ', 'y', 'o'] : Str)).length :=
  ⟨by decide, by decide,
   create_dict_group_wordcount [(⟨"a", ['h', 'i', ' ', 'y', 'o']⟩ : Record String)] 1
     ['h', 'i', ' ', 'y', 'o'] ["a"] (by decide) (by decide)⟩

/-- C8 counterexample: the single-word message "hi" appears as a key of
the grouper's output mapping even though its word count 1 does not
exceed the threshold 1 — the `defaultdict` access in the membership test
inserts the key (with an empty author list). -/
theorem create_dict_short_key_counterexample :
    ¬ 1 < (pySplit (['h', 'i'] : Str)).length ∧
    (['h', 'i'] : Str) ∈ alistKeys (create_dict [(⟨"a", ['h', 'i']⟩ : Record String)] 1) ∧
    create_dict [(⟨"a", ['h', 'i']⟩ : Record String)] 1 = [(['h', 'i'], [])] :=
  ⟨by decide, by decide, by decide⟩

/-- C9: two records with the same message text up to letter case, at
least two words, and distinct authors are grouped together (the grouper
lowercases), so their author pair is produced by the duplicate-message
extractor (at the default threshold `words_more_than = 1`). -/
theorem case_insensitive_duplicate_pair {A : Type} [DecidableEq A] (r1 r2 : Record A)
    (hauth : r1.author_id ≠ r2.author_id)
    (hmsg : pyLower r1.message = pyLower r2.message)
    (hwords : 2 ≤ (pySplit (pyLower r1.message)).length) :
    (r1.author_id, r2.author_id) ∈
      find_all_combinations (findSameMessages (create_dict [r1, r2] 1)) := by
  have h1 : 1 < (pySplit (pyLower r1.message)).length := hwords
  have e1 : createDictStep 1 [] r1 = [(pyLower r1.message, [r1.author_id])] := by
    unfold createDictStep ensureKey
    simp [alistKeys, alistLookup, alistModify, h1]
  have e2 : createDictStep 1 [(pyLower r1.message, [r1.author_id])] r2 =
      [(pyLower r1.message, [r1.author_id, r2.author_id])] := by
    unfold createDictStep ensureKey
    rw [← hmsg]
    simp [alistKeys, alistLookup, alistModify, h1, Ne.symm hauth]
  have e3 : create_dict [r1, r2] 1 = [(pyLower r1.message, [r1.author_id, r2.author_id])] := by
    unfold create_dict
    rw [List.foldl_cons, e1, List.foldl_cons, e2, List.foldl_nil]
  rw [e3]
  simp [findSameMessages, find_all_combinations, combinations2]

/-- C9 witness: "Hello There" by author "a" and "hello there" by author
"b" produce the pair ("a", "b"). -/
theorem case_insensitive_duplicate_pair_witness :
    ((⟨"a", ['H', 'e', 'l', 'l', 'o', ' ', 'T', 'h', 'e', 'r', 'e']⟩ :
        Record String).author_id ≠
      (⟨"b", ['h', 'e', 'l', 'l', 'o', ' ', 't', 'h', 'e', 'r', 'e']⟩ :
        Record String).author_id) ∧
    ("a", "b") ∈ find_all_combinations (findSameMessages (create_dict
      [(⟨"a", ['H', 'e', 'l', 'l', 'o', ' ', 'T', 'h', 'e', 'r', 'e']⟩ : Record String),
       (⟨"b", ['h', 'e', 'l', 'l', 'o', ' ', 't', 'h', 'e', 'r', 'e']⟩ : Record String)] 1)) :=
  ⟨by decide,
   case_insensitive_duplicate_pair
     (⟨"a", ['H', 'e', 'l', 'l', 'o', ' ', 'T', 'h', 'e', 'r', 'e']⟩ : Record String)
     (⟨"b", ['h', 'e', 'l', 'l', 'o', ' ', 't', 'h', 'e', 'r', 'e']⟩ : Record String)
     (by decide) (by decide) (by decide)⟩

theorem alistKeys_foldl_count {A : Type} [DecidableEq A] (a : A) (common : List Str)
    (ws : List Str) :
    ∀ f : List (A × Counter Str),
      alistKeys (ws.foldl (fun f word =>
        if word = [] then f
        else if word ∈ common then f
        else alistModify f a (fun c => counterUpdate c word)) f) = alistKeys f := by
  induction ws with
  | nil => intro f; rfl
  | cons w ws ih =>
    intro f
    rw [List.foldl_cons, ih]
    by_cases h1 : w = []
    · rw [if_pos h1]
    · rw [if_neg h1]
      by_cases h2 : w ∈ common
      · rw [if_pos h2]
      · rw [if_neg h2, alistKeys_alistModify]

theorem alistKeys_processRecord {A : Type} [DecidableEq A] (common : List Str)
    (f : List (A × Counter Str)) (line : Record A) :
    alistKeys (processRecord common f line) = dedupStep (alistKeys f) line.author_id := by
  unfold processRecord
  rw [alistKeys_foldl_count, alistKeys_ensureKey]
  rfl

theorem creteFreqDictAux_keys {A : Type} [DecidableEq A] (common : List Str)
    (data : List (Record A)) :
    ∀ f, alistKeys (creteFreqDictAux common data f) =
      (data.map Record.author_id).foldl dedupStep (alistKeys f) := by
  induction data with
  | nil => intro f; rfl
  | cons line rest ih =>
    intro f
    rw [show creteFreqDictAux common (line :: rest) f =
        creteFreqDictAux common rest (processRecord common f line) from rfl,
      ih, alistKeys_processRecord, List.map_cons, List.foldl_cons]

theorem crete_freq_dict_keys_eq {A : Type} [DecidableEq A] (data : List (Record A))
    (common : List Str) :
    alistKeys (crete_freq_dict data common) = dedupFirst (data.map Record.author_id) := by
  unfold crete_freq_dict dedupFirst
  rw [creteFreqDictAux_keys]
  rfl

theorem foldl_count_skip {A : Type} [DecidableEq A] (a : A) (common : List Str)
    {ws : List Str} (hws : ∀ w ∈ ws, w ∈ common) :
    ∀ f : List (A × Counter Str),
      ws.foldl (fun f word =>
        if word = [] then f
        else if word ∈ common then f
        else alistModify f a (fun c => counterUpdate c word)) f = f := by
  induction ws with
  | nil => intro f; rfl
  | cons w ws ih =>
    intro f
    rw [List.foldl_cons]
    have hw : w ∈ common := hws w (List.mem_cons_self _ _)
    by_cases h1 : w = []
    · rw [if_pos h1]
      exact ih (fun w h => hws w (List.mem_cons_of_mem _ h)) f
    · rw [if_neg h1, if_pos hw]
      exact ih (fun w h => hws w (List.mem_cons_of_mem _ h)) f

theorem alistLookup_foldl_count_ne {A : Type} [DecidableEq A] {b a : A} (hab : b ≠ a)
    (common : List Str) (ws : List Str) :
    ∀ f : List (A × Counter Str),
      alistLookup (ws.foldl (fun f word =>
        if word = [] then f
        else if word ∈ common then f
        else alistModify f b (fun c => counterUpdate c word)) f) a = alistLookup f a := by
  induction ws with
  | nil => intro f; rfl
  | cons w ws ih =>
    intro f
    rw [List.foldl_cons, ih]
    by_cases h1 : w = []
    · rw [if_pos h1]
    · rw [if_neg h1]
      by_cases h2 : w ∈ common
      · rw [if_pos h2]
      · rw [if_neg h2, alistLookup_alistModify_ne _ _ hab]

theorem alistLookup_processRecord_ne {A : Type} [DecidableEq A] (common : List Str)
    (f : List (A × Counter Str)) (line : Record A) {a : A} (h : line.author_id ≠ a) :
    alistLookup (processRecord common f line) a = alistLookup f a := by
  unfold processRecord
  rw [alistLookup_foldl_count_ne h]
  unfold ensureKey
  split
  · rfl
  · exact alistLookup_append_singleton_ne f _ h

theorem alistLookup_processRecord_self_skip {A : Type} [DecidableEq A] (common : List Str)
    (f : List (A × Counter Str)) (line : Record A)
    (htok : ∀ w ∈ pySplit (pyLower (stripPunct line.message)), w ∈ common) :
    alistLookup (processRecord common f line) line.author_id =
      if line.author_id ∈ alistKeys f then alistLookup f line.author_id else some [] := by
  unfold processRecord
  rw [foldl_count_skip _ _ htok]
  unfold ensureKey
  split
  · rfl
  · next h => exact alistLookup_append_right_of_not_mem _ h

theorem creteFreqDictAux_lookup_empty {A : Type} [DecidableEq A] (common : List Str)
    (a : A) (data : List (Record A))
    (hall : ∀ r ∈ data, r.author_id = a →
      ∀ w ∈ pySplit (pyLower (stripPunct r.message)), w ∈ common) :
    ∀ f, (alistLookup f a = some [] ∨ a ∉ alistKeys f) →
      (alistLookup (creteFreqDictAux common data f) a = some [] ∨
        a ∉ alistKeys (creteFreqDictAux common data f)) := by
  induction data with
  | nil => intro f hf; exact hf
  | cons line rest ih =>
    intro f hf
    rw [show creteFreqDictAux common (line :: rest) f =
        creteFreqDictAux common rest (processRecord common f line) from rfl]
    apply ih (fun r hr => hall r (List.mem_cons_of_mem _ hr))
    by_cases hline : line.author_id = a
    · have htok := hall line (List.mem_cons_self _ _) hline
      left
      have hs := alistLookup_processRecord_self_skip common f line htok
      rw [hline] at hs
      rw [hs]
      rcases hf with hf | hf
      · split
        · exact hf
        · rfl
      · rw [if_neg hf]
    · rcases hf with hf | hf
      · left
        rw [alistLookup_processRecord_ne common f line hline]
        exact hf
      · right
        rw [alistKeys_processRecord]
        unfold dedupStep
        split
        · exact hf
        · intro hmem
          rcases List.mem_append.mp hmem with h' | h'
          · exact hf h'
          · exact hline (List.mem_singleton.mp h').symm

/-- C10: the domain of the Frequency Modeler's mapping is exactly the
author ids occurring in the records (in first-appearance order); every
such author has a stored profile — the profile is the empty counter when
every one of the author's processed tokens is stoplisted — and every
pair of distinct record authors is enumerated (in one orientation) by
the scorer's `itertools.combinations` over the mapping's keys. -/
theorem crete_freq_dict_domain {A : Type} [DecidableEq A] (data : List (Record A))
    (common : List Str) :
    alistKeys (crete_freq_dict data common) = dedupFirst (data.map Record.author_id) ∧
    (∀ a, a ∈ data.map Record.author_id →
      ∃ c, alistLookup (crete_freq_dict data common) a = some c) ∧
    (∀ a, a ∈ data.map Record.author_id →
      (∀ r ∈ data, r.author_id = a →
        ∀ w ∈ pySplit (pyLower (stripPunct r.message)), w ∈ common) →
      alistLookup (crete_freq_dict data common) a = some []) ∧
    (∀ a b, a ∈ data.map Record.author_id → b ∈ data.map Record.author_id → a ≠ b →
      ((a, b) ∈ combinations2 (alistKeys (crete_freq_dict data common)) ∨
        (b, a) ∈ combinations2 (alistKeys (crete_freq_dict data common)))) := by
  have hkeys := crete_freq_dict_keys_eq data common
  refine ⟨hkeys, ?_, ?_, ?_⟩
  · intro a ha
    apply alistLookup_isSome_of_mem_keys
    rw [hkeys, mem_dedupFirst]
    exact ha
  · intro a ha hall
    have h := creteFreqDictAux_lookup_empty common a data hall []
      (Or.inr (by simp [alistKeys]))
    rcases h with h | h
    · exact h
    · exfalso
      apply h
      have : a ∈ alistKeys (crete_freq_dict data common) := by
        rw [hkeys, mem_dedupFirst]
        exact ha
      exact this
  · intro a b ha hb hab
    exact mem_combinations2_of_mem
      (by rw [hkeys, mem_dedupFirst]; exact ha)
      (by rw [hkeys, mem_dedupFirst]; exact hb) hab

/-- C10 witness: authors "a" and "b", with "a"'s only token stoplisted:
"a" still has an entry (the empty counter) and the pair ("a", "b") is
enumerated. -/
theorem crete_freq_dict_domain_witness :
    ("a" ∈ ([⟨"a", ['o', 'k']⟩, ⟨"b", ['h', 'i']⟩] :
        List (Record String)).map Record.author_id) ∧
    ("b" ∈ ([⟨"a", ['o', 'k']⟩, ⟨"b", ['h', 'i']⟩] :
        List (Record String)).map Record.author_id) ∧
    (("a" : String) ≠ "b") ∧
    (("a", "b") ∈ combinations2 (alistKeys (crete_freq_dict
        ([⟨"a", ['o', 'k']⟩, ⟨"b", ['h', 'i']⟩] : List (Record String)) [['o', 'k']])) ∨
      ("b", "a") ∈ combinations2 (alistKeys (crete_freq_dict
        ([⟨"a", ['o', 'k']⟩, ⟨"b", ['h', 'i']⟩] : List (Record String)) [['o', 'k']]))) :=
  ⟨by decide, by decide, by decide,
   (crete_freq_dict_domain ([⟨"a", ['o', 'k']⟩, ⟨"b", ['h', 'i']⟩] : List (Record String))
      [['o', 'k']]).2.2.2 "a" "b" (by decide) (by decide) (by decide)⟩

theorem counterUpdate_keys_prop {W : Type} [DecidableEq W] (P : W → Prop) {w : W}
    (hw : P w) : ∀ {c : Counter W}, (∀ q ∈ c, P q.1) → ∀ q ∈ counterUpdate c w, P q.1 := by
  intro c
  induction c with
  | nil =>
    intro _ q hq
    rcases List.mem_singleton.mp hq with rfl
    exact hw
  | cons p rest ih =>
    intro hc q hq
    rcases p with ⟨x, n⟩
    by_cases h : x = w
    · simp only [counterUpdate, if_pos h] at hq
      rcases List.mem_cons.mp hq with rfl | hq'
      · exact hc (x, n) (List.mem_cons_self _ _)
      · exact hc q (List.mem_cons_of_mem _ hq')
    · simp only [counterUpdate, if_neg h] at hq
      rcases List.mem_cons.mp hq with rfl | hq'
      · exact hc (x, n) (List.mem_cons_self _ _)
      · exact ih (fun q hq => hc q (List.mem_cons_of_mem _ hq)) q hq'

theorem foldl_count_good {A : Type} [DecidableEq A] (common : List Str) (a : A)
    {ws : List Str} (hws : ∀ w ∈ ws, w ≠ [] ∧ ∀ ch ∈ w, isPunct ch = false) :
    ∀ f : List (A × Counter Str),
      (∀ p ∈ f, ∀ q ∈ p.2, q.1 ∉ common ∧ q.1 ≠ [] ∧ ∀ ch ∈ q.1, isPunct ch = false) →
      ∀ p ∈ ws.foldl (fun f word =>
          if word = [] then f
          else if word ∈ common then f
          else alistModify f a (fun c => counterUpdate c word)) f,
        ∀ q ∈ p.2, q.1 ∉ common ∧ q.1 ≠ [] ∧ ∀ ch ∈ q.1, isPunct ch = false := by
  induction ws with
  | nil => intro f hf; simpa using hf
  | cons w ws ih =>
    intro f hf
    rw [List.foldl_cons]
    apply ih (fun w h => hws w (List.mem_cons_of_mem _ h))
    by_cases h1 : w = []
    · rw [if_pos h1]; exact hf
    · rw [if_neg h1]
      by_cases h2 : w ∈ common
      · rw [if_pos h2]; exact hf
      · rw [if_neg h2]
        intro p hp q hq
        rcases mem_alistModify hp with hp' | ⟨hpa, v, hv, hp2⟩
        · exact hf p hp' q hq
        · rw [hp2] at hq
          exact counterUpdate_keys_prop
            (fun x => x ∉ common ∧ x ≠ [] ∧ ∀ ch ∈ x, isPunct ch = false)
            ⟨h2, (hws w (List.mem_cons_self _ _)).1, (hws w (List.mem_cons_self _ _)).2⟩
            (fun q hq => hf (a, v) hv q hq) q hq

theorem processRecord_tokens_good {A : Type} [DecidableEq A] (line : Record A) :
    ∀ w ∈ pySplit (pyLower (stripPunct line.message)),
      w ≠ [] ∧ ∀ ch ∈ w, isPunct ch = false := by
  intro w hw
  refine ⟨pySplit_ne_nil hw, fun ch hch => ?_⟩
  have hmem := pySplit_chars hw ch hch
  rcases List.mem_map.mp hmem with ⟨c0, hc0, rfl⟩
  have hc0p : isPunct c0 = false := by
    have := (List.mem_filter.mp hc0).2
    simpa using this
  exact isPunct_toLower hc0p

theorem processRecord_values_good {A : Type} [DecidableEq A] (common : List Str)
    (f : List (A × Counter Str)) (line : Record A)
    (hf : ∀ p ∈ f, ∀ q ∈ p.2, q.1 ∉ common ∧ q.1 ≠ [] ∧ ∀ ch ∈ q.1, isPunct ch = false) :
    ∀ p ∈ processRecord common f line,
      ∀ q ∈ p.2, q.1 ∉ common ∧ q.1 ≠ [] ∧ ∀ ch ∈ q.1, isPunct ch = false := by
  unfold processRecord
  apply foldl_count_good common line.author_id (processRecord_tokens_good line)
  intro p hp q hq
  rcases mem_ensureKey hp with h | rfl
  · exact hf p h q hq
  · cases hq

theorem creteFreqDictAux_values_good {A : Type} [DecidableEq A] (common : List Str)
    (data : List (Record A)) :
    ∀ f, (∀ p ∈ f, ∀ q ∈ p.2, q.1 ∉ common ∧ q.1 ≠ [] ∧ ∀ ch ∈ q.1, isPunct ch = false) →
      ∀ p ∈ creteFreqDictAux common data f,
        ∀ q ∈ p.2, q.1 ∉ common ∧ q.1 ≠ [] ∧ ∀ ch ∈ q.1, isPunct ch = false := by
  induction data with
  | nil => intro f hf; exact hf
  | cons line rest ih =>
    intro f hf
    exact ih _ (processRecord_values_good common f line hf)

/-- C5 (amended): every word stored in any author's frequency profile is
outside the stoplist, non-empty, and free of punctuation characters (so
stoplisted processed tokens, punctuation-only tokens and empty tokens are
never counted), and all stored counts are non-negative; moreover an
author all of whose messages yield only stoplisted tokens after
punctuation stripping and lowercasing has an empty profile.  (The
unprocessed reading of "stoplisted word" fails: see the counterexample,
where the stoplisted raw token "+1" is counted as "1".) -/
theorem crete_freq_dict_filtered {A : Type} [DecidableEq A] (data : List (Record A))
    (common : List Str) :
    (∀ p ∈ crete_freq_dict data common, ∀ q ∈ p.2,
      q.1 ∉ common ∧ q.1 ≠ [] ∧ (∀ ch ∈ q.1, isPunct ch = false) ∧ 0 ≤ q.2) ∧
    (∀ a, a ∈ data.map Record.author_id →
      (∀ r ∈ data, r.author_id = a →
        ∀ w ∈ pySplit (pyLower (stripPunct r.message)), w ∈ common) →
      alistLookup (crete_freq_dict data common) a = some []) := by
  constructor
  · intro p hp q hq
    have h := creteFreqDictAux_values_good common data [] (by simp) p hp q hq
    exact ⟨h.1, h.2.1, h.2.2, Nat.zero_le _⟩
  · intro a ha hall
    have h := creteFreqDictAux_lookup_empty common a data hall []
      (Or.inr (by simp [alistKeys]))
    rcases h with h | h
    · exact h
    · exfalso
      apply h
      have : a ∈ alistKeys (crete_freq_dict data common) := by
        rw [crete_freq_dict_keys_eq, mem_dedupFirst]
        exact ha
      exact this

/-- C5 witness: author "a" writes only "OK!", whose processed token "ok"
is stoplisted, so the stored profile is the empty counter. -/
theorem crete_freq_dict_filtered_witness :
    ("a" ∈ ([⟨"a", ['O', 'K', '!']⟩] : List (Record String)).map Record.author_id) ∧
    (∀ r ∈ ([⟨"a", ['O', 'K', '!']⟩] : List (Record String)), r.author_id = "a" →
      ∀ w ∈ pySplit (pyLower (stripPunct r.message)), w ∈ ([['o', 'k']] : List Str)) ∧
    alistLookup (crete_freq_dict ([⟨"a", ['O', 'K', '!']⟩] : List (Record String))
      [['o', 'k']]) "a" = some [] :=
  ⟨by decide, by decide,
   (crete_freq_dict_filtered ([⟨"a", ['O', 'K', '!']⟩] : List (Record String))
      [['o', 'k']]).2 "a" (by decide) (by decide)⟩

/-- C5 counterexample: with the stoplist containing exactly "+1", the
author's sole message "+1" consists solely of stoplisted words, yet the
profile is not empty: punctuation stripping runs before the stoplist
check, so the stripped token "1" is counted. -/
theorem crete_freq_dict_stoplist_counterexample :
    (∀ w ∈ pySplit (['+', '1'] : Str), w ∈ ([['+', '1']] : List Str)) ∧
    alistLookup (crete_freq_dict [(⟨"a", ['+', '1']⟩ : Record String)] [['+', '1']]) "a" =
      some [(['1'], 1)] ∧
    some [(['1'], 1)] ≠ some ([] : Counter Str) :=
  ⟨by decide, by decide, by decide⟩

theorem createDictRawAux_error {A : Type} [DecidableEq A] (t : Nat)
    {data : List (RawRecord A)}
    (hbad : ∃ r ∈ data, r.author_id = none ∨ r.message = none) :
    ∀ g, ∃ e, createDictRawAux t data g = Except.error e := by
  induction data with
  | nil => simp at hbad
  | cons r rest ih =>
    intro g
    rcases hbad with ⟨r', hr', hbad'⟩
    rcases List.mem_cons.mp hr' with rfl | hmem
    · cases hm : r'.message with
      | none => exact ⟨"KeyError: message", by simp [createDictRawAux, hm]⟩
      | some msg =>
        cases ha : r'.author_id with
        | none => exact ⟨"KeyError: author_id", by simp [createDictRawAux, hm, ha]⟩
        | some a =>
          rcases hbad' with h | h
          · rw [ha] at h; cases h
          · rw [hm] at h; cases h
    · cases hm : r.message with
      | none => exact ⟨"KeyError: message", by simp [createDictRawAux, hm]⟩
      | some msg =>
        cases ha : r.author_id with
        | none => exact ⟨"KeyError: author_id", by simp [createDictRawAux, hm, ha]⟩
        | some a =>
          rcases ih ⟨r', hmem, hbad'⟩ (createDictStep t g ⟨a, msg⟩) with ⟨e, he⟩
          exact ⟨e, by simp [createDictRawAux, hm, ha, he]⟩

/-- C7 (amended): on any input containing a record missing `author_id`
or `message`, the pipeline fails with an uncaught `KeyError` raised at
the message-grouping step — the first stage to touch the record's
fields — so no record is silently skipped and no (partial) Twin Result
Set is produced.  (The load step itself performs no shape validation;
see the counterexample.) -/
theorem pipeline_error_on_malformed {A : Type} [LinearOrder A]
    (data : List (RawRecord A)) (common_words : List Str)
    (hbad : ∃ r ∈ data, r.author_id = none ∨ r.message = none) :
    ∃ e, find_twins_from_records data common_words = Except.error e := by
  rcases createDictRawAux_error 2 hbad [] with ⟨e, he⟩
  refine ⟨e, ?_⟩
  unfold find_twins_from_records createDictRaw
  rw [he]
  rfl

/-- C7 witness: a single record with `message` but no `author_id` makes
the pipeline fail. -/
theorem pipeline_error_on_malformed_witness :
    (∃ r ∈ ([⟨none, some ['h', 'i']⟩] : List (RawRecord String)),
      r.author_id = none ∨ r.message = none) ∧
    ∃ e, find_twins_from_records ([⟨none, some ['h', 'i']⟩] : List (RawRecord String)) [] =
      Except.error e :=
  ⟨⟨⟨none, some ['h', 'i']⟩, List.mem_singleton.mpr rfl, Or.inl rfl⟩,
   pipeline_error_on_malformed ([⟨none, some ['h', 'i']⟩] : List (RawRecord String)) []
     ⟨⟨none, some ['h', 'i']⟩, List.mem_singleton.mpr rfl, Or.inl rfl⟩⟩

/-- C7 counterexample: on a record missing `author_id` the load step
does NOT reject the record shape — `json.loads` validates only JSON
syntax, so `load_data` succeeds; the `KeyError` is raised later, inside
the grouping step `create_dict`, i.e. after analysis has begun. -/
theorem load_data_no_shape_validation :
    load_data ([⟨none, some ['h', 'i']⟩] : List (RawRecord String)) =
      Except.ok [⟨none, some ['h', 'i']⟩] ∧
    createDictRaw ([⟨none, some ['h', 'i']⟩] : List (RawRecord String)) 2 =
      Except.error "KeyError: author_id" :=
  ⟨rfl, rfl⟩

end DetectTwins
